import Mathlib

/-!
Verification of the note index engine of `zettelkasten_app.py`.

The store (the `zettel` directory) is modelled as a list of files, each a
filename together with an optional content: `some c` is a readable file with
text `c`, `none` is a file that exists but whose `open(...).read()` raises
(the app's `except` branches treat read failures this way).

Python specifics are embedded explicitly:
* `int(s)` on the numeric-prefix strings is `pyParseInt`: strip whitespace,
  optional sign, one or more ASCII decimal digits (the prefix is taken before
  the first underscore, so Python's digit-group underscores cannot occur).
* `str(n)` is `intToString` (decimal rendering, `-` sign for negatives).
* `x in s` (substring test) is `containsSub`.
* `s.replace(old, new)` is `pyReplace` (all non-overlapping occurrences,
  left to right; `old` is never empty at the call sites modelled here).
* `re.findall(r"#\w+", s)` is `findTags` (maximal runs of `#` followed by
  one or more word characters, scanning left to right, non-overlapping;
  word characters are modelled as ASCII letters, digits and underscore).
* `sorted` (a stable sort) is `List.insertionSort`, which is stable, so the
  outputs coincide.
-/

/-- ASCII decimal digit test, as accepted by Python's `int`. -/
def isDig (c : Char) : Bool := 48 ≤ c.toNat && c.toNat ≤ 57

/-- Numeric value of a digit character. -/
def dval (c : Char) : Nat := c.toNat - 48

/-- Decimal value of a digit string (most significant first). -/
def decDigits (l : List Char) : Nat := l.foldl (fun a c => a * 10 + dval c) 0

/-- Parse a non-empty all-digit character list, else fail. -/
def parseDigits (l : List Char) : Option Nat :=
  if l ≠ [] ∧ l.all isDig then some (decDigits l) else none

/-- Strip leading and trailing whitespace, as Python `str.strip()` does. -/
def trimChars (l : List Char) : List Char :=
  ((l.dropWhile Char.isWhitespace).reverse.dropWhile Char.isWhitespace).reverse

/-- Python `int(s)`: strip whitespace, optional sign, decimal digits. -/
def pyParseIntChars (l : List Char) : Option Int :=
  match trimChars l with
  | [] => none
  | c :: rest =>
    if c = '-' then (parseDigits rest).map (fun n => -(n : Int))
    else if c = '+' then (parseDigits rest).map (fun n => (n : Int))
    else (parseDigits (c :: rest)).map (fun n => (n : Int))

/-- Python `int(s)` on a string. -/
def pyParseInt (s : String) : Option Int := pyParseIntChars s.data

/-- The decimal digit character for a value below ten. -/
def digitChar (n : Nat) : Char :=
  match n with
  | 0 => '0' | 1 => '1' | 2 => '2' | 3 => '3' | 4 => '4'
  | 5 => '5' | 6 => '6' | 7 => '7' | 8 => '8' | _ => '9'

/-- Fuel-driven decimal rendering of a natural number (fuel `n + 1` suffices). -/
def natToDigitsGo : Nat → Nat → List Char → List Char
  | 0, _, acc => acc
  | fuel + 1, n, acc =>
    if n < 10 then digitChar n :: acc
    else natToDigitsGo fuel (n / 10) (digitChar (n % 10) :: acc)

/-- Decimal digits of a natural number, most significant first. -/
def natToDigits (n : Nat) : List Char := natToDigitsGo (n + 1) n []

/-- Python `str` on an integer. -/
def intToString (i : Int) : String :=
  match i with
  | Int.ofNat n => ⟨natToDigits n⟩
  | Int.negSucc n => ⟨'-' :: natToDigits (n + 1)⟩

/-- Substring test: Python's `needle in hay`. -/
def infixCheck (needle : List Char) : List Char → Bool
  | [] => needle.isEmpty
  | c :: rest => needle.isPrefixOf (c :: rest) || infixCheck needle rest

/-- Python `sub in s` on strings. -/
def containsSub (s sub : String) : Bool := infixCheck sub.data s.data

/-- Replace occurrences left to right; a positive skip counter consumes the
remainder of a match that was just replaced. -/
def replAux (pat repl : List Char) : Nat → List Char → List Char
  | _, [] => []
  | Nat.succ k, _ :: rest => replAux pat repl k rest
  | 0, c :: rest =>
    if pat ≠ [] ∧ pat.isPrefixOf (c :: rest) then
      repl ++ replAux pat repl (pat.length - 1) rest
    else c :: replAux pat repl 0 rest

/-- Python `s.replace(pat, repl)` for a non-empty `pat`. -/
def pyReplace (s pat repl : String) : String := ⟨replAux pat.data repl.data 0 s.data⟩

/-- Word character of the tag pattern: ASCII letter, digit or underscore. -/
def isWordChar (c : Char) : Bool :=
  isDig c || (65 ≤ c.toNat && c.toNat ≤ 90) || (97 ≤ c.toNat && c.toNat ≤ 122) || c = '_'

/-- Scanner for `re.findall(r"#\w+", _)`: `none` is outside a candidate match,
`some acc` has consumed a `#` and the reversed word characters `acc`. -/
def tagsAux : Option (List Char) → List Char → List (List Char)
  | none, [] => []
  | some acc, [] => if acc = [] then [] else [acc.reverse]
  | none, c :: rest => if c = '#' then tagsAux (some []) rest else tagsAux none rest
  | some acc, c :: rest =>
    if isWordChar c then tagsAux (some (c :: acc)) rest
    else if acc = [] then (if c = '#' then tagsAux (some []) rest else tagsAux none rest)
    else acc.reverse :: (if c = '#' then tagsAux (some []) rest else tagsAux none rest)

/-- All `#word` tokens of a text, in scan order (`re.findall(r"#\w+", s)`). -/
def findTags (s : String) : List String :=
  (tagsAux none s.data).map (fun w => ⟨'#' :: w⟩)

/-- Lexicographic order on character lists by code point, the order Python
uses to compare strings. -/
def lexLe : List Char → List Char → Bool
  | [], _ => true
  | _ :: _, [] => false
  | a :: as, b :: bs =>
    if a.toNat < b.toNat then true
    else if b.toNat < a.toNat then false
    else lexLe as bs

/-- Python string comparison `a <= b`. -/
def strLe (a b : String) : Prop := lexLe a.data b.data = true

instance : DecidableRel strLe := fun a b => instDecidableEqBool (lexLe a.data b.data) true

/-- Lower-casing of a character list (`str.lower()`, ASCII range). -/
def lowerChars (l : List Char) : List Char := l.map Char.toLower

/-- Python `str.split()` (split on whitespace runs, no empty words); the
accumulator holds the reversed current word. -/
def splitWordsAux : List Char → List Char → List (List Char)
  | acc, [] => if acc = [] then [] else [acc.reverse]
  | acc, c :: rest =>
    if c.isWhitespace then
      if acc = [] then splitWordsAux [] rest else acc.reverse :: splitWordsAux [] rest
    else splitWordsAux (c :: acc) rest

/-- Words of a title, as Python `title.strip().split()`. -/
def titleWords (title : String) : List (List Char) := splitWordsAux [] (trimChars title.data)

/-- A note file of the store: a name and an optional (readable) content. -/
structure NoteFile where
  name : String
  content : Option String
deriving DecidableEq

/-- The `zettel` directory: its files, in directory-listing order. -/
abbrev Store := List NoteFile

/-- `list_note_files`: names ending in `.md` and not starting with `.`. -/
def isNoteFile (name : String) : Bool :=
  List.isSuffixOf ['.', 'm', 'd'] name.data && !(name.data.headI = '.')

/-- `list_note_files()`: the note filenames of the store. -/
def list_note_files (s : Store) : List String :=
  (s.map (fun f => f.name)).filter isNoteFile

/-- `open(filepath).read()`: content of the named file, `none` when the file
is absent or unreadable. -/
def readNote : Store → String → Option String
  | [], _ => none
  | f :: rest, n => if f.name = n then f.content else readNote rest n

/-- `open(filepath, "w").write(c)`: overwrite the named file or create it. -/
def writeFile : Store → String → String → Store
  | [], n, c => [⟨n, some c⟩]
  | f :: rest, n, c => if f.name = n then ⟨n, some c⟩ :: rest else f :: writeFile rest n c

/-- `os.remove`: drop the named file from the store. -/
def removeFile (s : Store) (n : String) : Store := s.filter (fun f => !(f.name = n))

/-- `extract_id_from_filename` / `fname.split("_", 1)[0]`. -/
def extract_id_from_filename (filename : String) : String :=
  ⟨filename.data.takeWhile (fun c => c ≠ '_')⟩

/-- The integer the filename's prefix parses to, if any. -/
def parsedId (fname : String) : Option Int :=
  pyParseInt (extract_id_from_filename fname)

/-- The parsed ids of all note files, malformed prefixes skipped. -/
def parsedIds (s : Store) : List Int := (list_note_files s).filterMap parsedId

/-- `get_next_id` before `str(...)`: `max(ids) + 1 if ids else 1`. -/
def get_next_id_int (s : Store) : Int :=
  match parsedIds s with
  | [] => 1
  | x :: xs => xs.foldl max x + 1

/-- `get_next_id()`: the next id, as the decimal string the code returns. -/
def get_next_id (s : Store) : String := intToString (get_next_id_int s)

/-- `generate_filename(note_id, title)`: `{id}_{slug}.md` with the slug the
whitespace-joined words of the title truncated to 30 characters. -/
def generate_filename (note_id : String) (title : String) : String :=
  ⟨note_id.data ++ '_' :: ((List.intersperse ['_'] (titleWords title)).flatten.take 30 ++ ['.', 'm', 'd'])⟩

/-- The templated initial body written by `new_note`. -/
def noteTemplate (title note_id now : String) : String :=
  "# " ++ title ++ "\n\nID: " ++ note_id ++ "\nCreated: " ++ now ++
    "\n\nLinks: Use [[note_id]] to reference another note.\nTags: Add with #example\n"

/-- `new_note`: an empty title (the falsy dialog result) aborts; otherwise
allocate the next id, derive the filename and write the templated body.
`now` stands for `datetime.datetime.now().isoformat()`. -/
def new_note (s : Store) (title now : String) : Store :=
  if title = "" then s
  else
    writeFile s (generate_filename (get_next_id s) title)
      (noteTemplate title (get_next_id s) now)

/-- Sort key of `refresh_list`: `int(x.split("_", 1)[0])`, defaulting after
the totality check. -/
def listKey (fname : String) : Int := (parsedId fname).getD 0

/-- `refresh_list()` without a filter: sort the note filenames by integer
prefix; `int` raising on any malformed prefix is modelled as `none`. -/
def refresh_list (s : Store) : Option (List String) :=
  let files := list_note_files s
  if files.all (fun f => (parsedId f).isSome) then
    some (files.insertionSort (fun a b => listKey a ≤ listKey b))
  else none

/-- The loop body of `find_backlinks`: keep the files whose content is
readable and contains the pattern; unreadable files are skipped. -/
def backlinksGo (s : Store) (pat : String) : List String → List String
  | [] => []
  | f :: rest =>
    match readNote s f with
    | none => backlinksGo s pat rest
    | some c => if containsSub c pat then f :: backlinksGo s pat rest else backlinksGo s pat rest

/-- `find_backlinks(note_id)`. -/
def find_backlinks (s : Store) (note_id : String) : List String :=
  backlinksGo s ("[[" ++ note_id ++ "]]") (list_note_files s)

/-- The tag tokens gathered over the given files, unreadable files skipped. -/
def collectTags (s : Store) : List String → List String
  | [] => []
  | f :: rest =>
    (match readNote s f with
     | none => []
     | some c => findTags c) ++ collectTags s rest

/-- `extract_tags()`: `sorted(set(tags))`. -/
def extract_tags (s : Store) : List String :=
  ((collectTags s (list_note_files s)).dedup).insertionSort strLe

/-- The filter of `search_notes`: keyword in lowered name or lowered content;
an unreadable file is excluded. -/
def searchFilter (s : Store) (kw : List Char) (fname : String) : Bool :=
  match readNote s fname with
  | none => false
  | some c => infixCheck kw (lowerChars fname.data) || infixCheck kw (lowerChars c.data)

/-- `search_notes()`: strip and lower the keyword; an empty result means no
filter; otherwise filter the sorted listing. -/
def search_notes (s : Store) (keyword : String) : Option (List String) :=
  let kw := lowerChars (trimChars keyword.data)
  if kw = [] then refresh_list s
  else (refresh_list s).map (fun l => l.filter (searchFilter s kw))

/-- The link token `[[<id>]]` of `delete_note` and `find_backlinks`. -/
def delPat (note_id : String) : String := "[[" ++ note_id ++ "]]"

/-- The placeholder `(deleted note <id>)` written by `delete_note`. -/
def delRepl (note_id : String) : String := "(deleted note " ++ note_id ++ ")"

/-- The backlink-update loop of `delete_note`: for each listed file other
than the deleted one, read it and rewrite the link tokens; a read failure
raises, which aborts the remaining loop (the surrounding `try` catches it).
The returned flag records whether the `except` branch was reached. -/
def cleanupLoop (note_id filename : String) : List String → Store → Store × Bool
  | [], s => (s, false)
  | f :: rest, s =>
    if f = filename then cleanupLoop note_id filename rest s
    else
      match readNote s f with
      | none => (s, true)
      | some c =>
        if containsSub c (delPat note_id) then
          cleanupLoop note_id filename rest (writeFile s f (pyReplace c (delPat note_id) (delRepl note_id)))
        else cleanupLoop note_id filename rest s

/-- `delete_note` on a confirmed open note: remove the file (a failure there
is also caught, leaving the store unchanged), then run the backlink-update
loop over the remaining listing. The flag records whether the error dialog
was shown. -/
def delete_note (s : Store) (note_id filename : String) : Store × Bool :=
  if filename ∈ s.map (fun f => f.name) then
    cleanupLoop note_id filename (list_note_files (removeFile s filename)) (removeFile s filename)
  else (s, true)

/-- The ids allocated by a sequence of `new_note` calls, each operation a
(title, timestamp) pair. -/
def createdIds : Store → List (String × String) → List Int
  | _, [] => []
  | s, p :: ps => get_next_id_int s :: createdIds (new_note s p.1 p.2) ps

/-! ### Digit and parsing lemmas -/

theorem dval_digitChar (n : Nat) (h : n < 10) : dval (digitChar n) = n := by
  interval_cases n <;> decide

theorem isDig_digitChar (n : Nat) (h : n < 10) : isDig (digitChar n) = true := by
  interval_cases n <;> decide

theorem isDig_bounds {c : Char} (h : isDig c = true) : 48 ≤ c.toNat ∧ c.toNat ≤ 57 := by
  simpa [isDig] using h

theorem toNat_of_isWhitespace {c : Char} (h : c.isWhitespace = true) :
    c.toNat = 32 ∨ c.toNat = 9 ∨ c.toNat = 13 ∨ c.toNat = 10 := by
  simp only [Char.isWhitespace, Bool.or_eq_true, decide_eq_true_eq] at h
  rcases h with ((h | h) | h) | h <;> subst h <;> decide

theorem not_ws_of_isDig {c : Char} (h : isDig c = true) : c.isWhitespace = false := by
  cases hw : c.isWhitespace
  · rfl
  · exfalso
    have h1 := isDig_bounds h
    have h2 := toNat_of_isWhitespace hw
    omega

theorem ne_of_toNat_ne {c d : Char} (h : c.toNat ≠ d.toNat) : c ≠ d := by
  intro he
  exact h (congrArg Char.toNat he)

theorem isDig_ne_underscore {c : Char} (h : isDig c = true) : c ≠ '_' := by
  intro he
  rw [he] at h
  exact absurd h (by decide)

theorem isDig_ne_minus {c : Char} (h : isDig c = true) : c ≠ '-' := by
  intro he
  rw [he] at h
  exact absurd h (by decide)

theorem isDig_ne_plus {c : Char} (h : isDig c = true) : c ≠ '+' := by
  intro he
  rw [he] at h
  exact absurd h (by decide)

theorem isDig_ne_dot {c : Char} (h : isDig c = true) : c ≠ '.' := by
  intro he
  rw [he] at h
  exact absurd h (by decide)

theorem dropWhile_eq_self_of_none {p : Char → Bool} {l : List Char}
    (h : ∀ c ∈ l, p c = false) : l.dropWhile p = l := by
  cases l with
  | nil => rfl
  | cons a as =>
    rw [List.dropWhile_cons, h a (List.mem_cons_self a as)]
    simp

theorem trimChars_eq_self {l : List Char} (h : ∀ c ∈ l, c.isWhitespace = false) :
    trimChars l = l := by
  unfold trimChars
  rw [dropWhile_eq_self_of_none h]
  rw [dropWhile_eq_self_of_none (fun c hc => h c (List.mem_reverse.mp hc))]
  exact List.reverse_reverse l

theorem natToDigitsGo_acc :
    ∀ fuel n acc, n < fuel → natToDigitsGo fuel n acc = natToDigitsGo fuel n [] ++ acc := by
  intro fuel
  induction fuel with
  | zero => intro n acc h; omega
  | succ f ih =>
    intro n acc h
    by_cases h10 : n < 10
    · simp [natToDigitsGo, h10]
    · have hdiv : n / 10 < n := Nat.div_lt_self (by omega) (by omega)
      have hf : n / 10 < f := by omega
      simp only [natToDigitsGo, if_neg h10]
      rw [ih (n / 10) (digitChar (n % 10) :: acc) hf, ih (n / 10) [digitChar (n % 10)] hf]
      simp

theorem natToDigitsGo_fuel :
    ∀ f₁ f₂ n acc, n < f₁ → n < f₂ → natToDigitsGo f₁ n acc = natToDigitsGo f₂ n acc := by
  intro f₁
  induction f₁ with
  | zero => intro f₂ n acc h; omega
  | succ f ih =>
    intro f₂ n acc h1 h2
    cases f₂ with
    | zero => omega
    | succ g =>
      by_cases h10 : n < 10
      · simp [natToDigitsGo, h10]
      · have hdiv : n / 10 < n := Nat.div_lt_self (by omega) (by omega)
        simp only [natToDigitsGo, if_neg h10]
        exact ih g (n / 10) (digitChar (n % 10) :: acc) (by omega) (by omega)

theorem natToDigits_lt (n : Nat) (h : n < 10) : natToDigits n = [digitChar n] := by
  simp [natToDigits, natToDigitsGo, h]

theorem natToDigits_ge (n : Nat) (h : 10 ≤ n) :
    natToDigits n = natToDigits (n / 10) ++ [digitChar (n % 10)] := by
  have hdiv : n / 10 < n := Nat.div_lt_self (by omega) (by omega)
  have e1 : natToDigits n = natToDigitsGo (n + 1) n [] := rfl
  rw [e1]
  have e2 : natToDigitsGo (n + 1) n [] = natToDigitsGo n (n / 10) [digitChar (n % 10)] := by
    simp only [natToDigitsGo, if_neg (by omega : ¬ n < 10)]
  rw [e2]
  rw [natToDigitsGo_acc n (n / 10) [digitChar (n % 10)] (by omega)]
  rw [natToDigitsGo_fuel n (n / 10 + 1) (n / 10) [] (by omega) (by omega)]
  rfl

theorem natToDigits_ne_nil (n : Nat) : natToDigits n ≠ [] := by
  by_cases h : n < 10
  · rw [natToDigits_lt n h]; simp
  · rw [natToDigits_ge n (by omega)]; simp

theorem natToDigits_all_isDig (n : Nat) : ∀ c ∈ natToDigits n, isDig c = true := by
  induction n using Nat.strong_induction_on with
  | _ n ih =>
    by_cases h : n < 10
    · rw [natToDigits_lt n h]
      intro c hc
      rw [List.mem_singleton] at hc
      subst hc
      exact isDig_digitChar n h
    · rw [natToDigits_ge n (by omega)]
      intro c hc
      rcases List.mem_append.mp hc with hc | hc
      · exact ih (n / 10) (Nat.div_lt_self (by omega) (by omega)) c hc
      · rw [List.mem_singleton] at hc
        subst hc
        exact isDig_digitChar (n % 10) (Nat.mod_lt n (by omega))

theorem decDigits_natToDigits (n : Nat) : decDigits (natToDigits n) = n := by
  induction n using Nat.strong_induction_on with
  | _ n ih =>
    by_cases h : n < 10
    · rw [natToDigits_lt n h]
      simp [decDigits, dval_digitChar n h]
    · rw [natToDigits_ge n (by omega)]
      unfold decDigits
      rw [List.foldl_append]
      have h1 : decDigits (natToDigits (n / 10)) = n / 10 :=
        ih (n / 10) (Nat.div_lt_self (by omega) (by omega))
      unfold decDigits at h1
      rw [h1]
      simp [dval_digitChar (n % 10) (Nat.mod_lt n (by omega))]
      omega

theorem parseDigits_natToDigits (n : Nat) : parseDigits (natToDigits n) = some n := by
  unfold parseDigits
  rw [if_pos ⟨natToDigits_ne_nil n, List.all_eq_true.mpr (natToDigits_all_isDig n)⟩]
  rw [decDigits_natToDigits n]

theorem pyParseIntChars_all_digits {l : List Char} (hne : l ≠ [])
    (hd : ∀ c ∈ l, isDig c = true) :
    pyParseIntChars l = (parseDigits l).map (fun n => (n : Int)) := by
  have hws : ∀ c ∈ l, c.isWhitespace = false := fun c hc => not_ws_of_isDig (hd c hc)
  unfold pyParseIntChars
  rw [trimChars_eq_self hws]
  cases l with
  | nil => exact absurd rfl hne
  | cons c rest =>
    have hc := hd c (List.mem_cons_self c rest)
    simp only [if_neg (isDig_ne_minus hc), if_neg (isDig_ne_plus hc)]

theorem pyParseIntChars_neg_digits {l : List Char} (_hne : l ≠ [])
    (hd : ∀ c ∈ l, isDig c = true) :
    pyParseIntChars ('-' :: l) = (parseDigits l).map (fun n => -(n : Int)) := by
  have hws : ∀ c ∈ '-' :: l, c.isWhitespace = false := by
    intro c hc
    rcases List.mem_cons.mp hc with hc | hc
    · subst hc; decide
    · exact not_ws_of_isDig (hd c hc)
  unfold pyParseIntChars
  rw [trimChars_eq_self hws]
  simp

theorem pyParseInt_intToString (i : Int) : pyParseInt (intToString i) = some i := by
  cases i with
  | ofNat n =>
    show pyParseIntChars (natToDigits n) = some (Int.ofNat n)
    rw [pyParseIntChars_all_digits (natToDigits_ne_nil n) (natToDigits_all_isDig n)]
    rw [parseDigits_natToDigits n]
    rfl
  | negSucc n =>
    show pyParseIntChars ('-' :: natToDigits (n + 1)) = some (Int.negSucc n)
    rw [pyParseIntChars_neg_digits (natToDigits_ne_nil (n + 1)) (natToDigits_all_isDig (n + 1))]
    rw [parseDigits_natToDigits (n + 1)]
    simp [Int.negSucc_eq]

theorem intToString_chars (i : Int) :
    ∀ c ∈ (intToString i).data, isDig c = true ∨ c = '-' := by
  cases i with
  | ofNat n =>
    intro c hc
    exact Or.inl (natToDigits_all_isDig n c hc)
  | negSucc n =>
    intro c hc
    rcases List.mem_cons.mp hc with hc | hc
    · exact Or.inr hc
    · exact Or.inl (natToDigits_all_isDig (n + 1) c hc)

theorem intToString_ne_nil (i : Int) : (intToString i).data ≠ [] := by
  cases i with
  | ofNat n => exact natToDigits_ne_nil n
  | negSucc n => simp [intToString]

theorem intToString_head_ne_dot (i : Int) : ∀ c, (intToString i).data.headI = c → c ≠ '.' := by
  intro c hc
  cases hl : (intToString i).data with
  | nil => exact absurd hl (intToString_ne_nil i)
  | cons a rest =>
    have ha : a ∈ (intToString i).data := by rw [hl]; exact List.mem_cons_self a rest
    rw [hl] at hc
    simp only [List.headI] at hc
    subst hc
    rcases intToString_chars i a ha with h | h
    · exact isDig_ne_dot h
    · subst h; decide

/-! ### Maximum lemmas for the id allocator -/

theorem le_foldl_max (xs : List Int) : ∀ x y, y ∈ x :: xs → y ≤ xs.foldl max x := by
  induction xs with
  | nil =>
    intro x y hy
    rw [List.mem_singleton] at hy
    subst hy
    exact le_refl y
  | cons a as ih =>
    intro x y hy
    have step : ∀ z, z ≤ max x a → z ≤ as.foldl max (max x a) :=
      fun z hz => le_trans hz (ih (max x a) (max x a) (List.mem_cons_self _ _))
    rcases List.mem_cons.mp hy with hy | hy
    · subst hy
      exact step y (le_max_left y a)
    · rcases List.mem_cons.mp hy with hy | hy
      · subst hy
        exact step y (le_max_right x y)
      · exact ih (max x a) y (List.mem_cons_of_mem _ hy)

theorem foldl_max_mem (xs : List Int) : ∀ x, xs.foldl max x ∈ x :: xs := by
  induction xs with
  | nil => intro x; exact List.mem_singleton.mpr rfl
  | cons a as ih =>
    intro x
    rw [List.foldl_cons]
    have h := ih (max x a)
    rcases List.mem_cons.mp h with h | h
    · rw [h]
      rcases max_choice x a with hm | hm <;> rw [hm]
      · exact List.mem_cons_self _ _
      · exact List.mem_cons_of_mem _ (List.mem_cons_self _ _)
    · exact List.mem_cons_of_mem _ (List.mem_cons_of_mem _ h)

theorem parsedIds_lt_next (s : Store) : ∀ i ∈ parsedIds s, i < get_next_id_int s := by
  intro i hi
  cases hp : parsedIds s with
  | nil => rw [hp] at hi; exact absurd hi (List.not_mem_nil i)
  | cons x xs =>
    rw [hp] at hi
    have h2 := le_foldl_max xs x i hi
    unfold get_next_id_int
    rw [hp]
    show i < xs.foldl max x + 1
    omega

theorem one_le_next (s : Store) (h0 : ∀ i ∈ parsedIds s, 0 ≤ i) :
    1 ≤ get_next_id_int s := by
  cases hp : parsedIds s with
  | nil =>
    unfold get_next_id_int
    rw [hp]
  | cons x xs =>
    have hmem := foldl_max_mem xs x
    have h2 := h0 (xs.foldl max x) (by rw [hp]; exact hmem)
    unfold get_next_id_int
    rw [hp]
    show 1 ≤ xs.foldl max x + 1
    omega

/-! ### Store lemmas -/

theorem readNote_writeFile (s : Store) (n m : String) (c : String) :
    readNote (writeFile s n c) m = if m = n then some c else readNote s m := by
  induction s with
  | nil =>
    show (if n = m then some c else none) = if m = n then some c else none
    by_cases h : m = n
    · rw [if_pos h.symm, if_pos h]
    · rw [if_neg (fun hc => h hc.symm), if_neg h]
  | cons f rest ih =>
    by_cases hf : f.name = n
    · simp only [writeFile, if_pos hf, readNote]
      by_cases hm : m = n
      · rw [if_pos hm.symm, if_pos hm]
      · rw [if_neg (fun hc => hm hc.symm), if_neg hm]
        rw [if_neg (by rw [hf]; exact fun hc => hm hc.symm)]
    · simp only [writeFile, if_neg hf, readNote]
      by_cases hfm : f.name = m
      · rw [if_pos hfm, if_pos hfm]
        rw [if_neg (fun hc => hf (hfm.trans hc))]
      · rw [if_neg hfm, if_neg hfm, ih]

theorem map_name_writeFile_mem (s : Store) (n : String) (c : String)
    (h : n ∈ s.map (fun f => f.name)) :
    (writeFile s n c).map (fun f => f.name) = s.map (fun f => f.name) := by
  induction s with
  | nil => exact absurd h (List.not_mem_nil n)
  | cons f rest ih =>
    by_cases hf : f.name = n
    · simp [writeFile, hf]
    · have hn : n ∈ rest.map (fun f => f.name) := by
        rcases List.mem_cons.mp h with h | h
        · exact absurd h.symm hf
        · exact h
      simp [writeFile, hf, ih hn]

theorem writeFile_not_mem (s : Store) (n : String) (c : String)
    (h : n ∉ s.map (fun f => f.name)) :
    writeFile s n c = s ++ [⟨n, some c⟩] := by
  induction s with
  | nil => rfl
  | cons f rest ih =>
    have hf : f.name ≠ n := by
      intro he
      exact h (by rw [← he]; exact List.mem_cons_self _ _)
    have hr : n ∉ rest.map (fun g => g.name) :=
      fun hm => h (List.mem_cons_of_mem _ hm)
    simp [writeFile, hf, ih hr]

theorem mem_map_name_writeFile (s : Store) (n : String) (c : String) :
    n ∈ (writeFile s n c).map (fun f => f.name) := by
  induction s with
  | nil => simp [writeFile]
  | cons f rest ih =>
    by_cases hf : f.name = n
    · simp [writeFile, hf]
    · simp only [writeFile, if_neg hf, List.map_cons, List.mem_cons]
      exact Or.inr ih

theorem readNote_removeFile (s : Store) (n m : String) (h : m ≠ n) :
    readNote (removeFile s n) m = readNote s m := by
  induction s with
  | nil => rfl
  | cons f rest ih =>
    by_cases hf : f.name = n
    · have e : removeFile (f :: rest) n = removeFile rest n := by
        simp [removeFile, List.filter_cons, hf]
      rw [e, ih, readNote, if_neg (by rw [hf]; exact fun hc => h hc.symm)]
    · have e : removeFile (f :: rest) n = f :: removeFile rest n := by
        simp [removeFile, List.filter_cons, hf]
      rw [e, readNote, readNote]
      by_cases hfm : f.name = m
      · rw [if_pos hfm, if_pos hfm]
      · rw [if_neg hfm, if_neg hfm]
        exact ih

theorem readNote_mem_name {s : Store} {f : String} {c : String}
    (h : readNote s f = some c) : f ∈ s.map (fun g => g.name) := by
  induction s with
  | nil => simp [readNote] at h
  | cons g rest ih =>
    by_cases hg : g.name = f
    · exact List.mem_cons.mpr (Or.inl hg.symm)
    · rw [readNote, if_neg hg] at h
      exact List.mem_cons_of_mem _ (ih h)

/-! ### Listing and id lemmas -/

theorem list_note_files_append (s t : Store) :
    list_note_files (s ++ t) = list_note_files s ++ list_note_files t := by
  simp [list_note_files]

theorem parsedIds_append (s t : Store) :
    parsedIds (s ++ t) = parsedIds s ++ parsedIds t := by
  unfold parsedIds
  rw [list_note_files_append, List.filterMap_append]

theorem mem_name_of_mem_list_note_files {s : Store} {f : String}
    (h : f ∈ list_note_files s) : f ∈ s.map (fun g => g.name) :=
  (List.mem_filter.mp h).1

theorem not_mem_map_name_removeFile (s : Store) (n : String) :
    n ∉ (removeFile s n).map (fun f => f.name) := by
  intro hmem
  obtain ⟨f, hf, hname⟩ := List.mem_map.mp hmem
  have hp := List.of_mem_filter hf
  rw [hname] at hp
  simp at hp

theorem takeWhile_ne_underscore (l₁ l₂ : List Char) (h : ∀ c ∈ l₁, c ≠ '_') :
    (l₁ ++ '_' :: l₂).takeWhile (fun c => c ≠ '_') = l₁ := by
  induction l₁ with
  | nil => simp [List.takeWhile_cons]
  | cons a as ih =>
    have ha : a ≠ '_' := h a (List.mem_cons_self a as)
    rw [List.cons_append, List.takeWhile_cons, if_pos (by simp [ha])]
    rw [ih (fun c hc => h c (List.mem_cons_of_mem _ hc))]

theorem intToString_no_underscore (i : Int) : ∀ c ∈ (intToString i).data, c ≠ '_' := by
  intro c hc
  rcases intToString_chars i c hc with h | h
  · exact isDig_ne_underscore h
  · subst h; decide

theorem extract_id_generate (idStr title : String) (h : ∀ c ∈ idStr.data, c ≠ '_') :
    extract_id_from_filename (generate_filename idStr title) = idStr := by
  unfold extract_id_from_filename generate_filename
  congr 1
  exact takeWhile_ne_underscore idStr.data _ h

theorem parsedId_generate (i : Int) (title : String) :
    parsedId (generate_filename (intToString i) title) = some i := by
  unfold parsedId
  rw [extract_id_generate (intToString i) title (intToString_no_underscore i)]
  exact pyParseInt_intToString i

theorem isPrefixOf_self_append (r y : List Char) : r.isPrefixOf (r ++ y) = true := by
  induction r with
  | nil => cases y <;> rfl
  | cons a as ih => simp [List.isPrefixOf, ih]

theorem isSuffixOf_append_self (l x : List Char) : l.isSuffixOf (x ++ l) = true := by
  unfold List.isSuffixOf
  rw [List.reverse_append]
  exact isPrefixOf_self_append l.reverse x.reverse

theorem isNoteFile_generate (i : Int) (title : String) :
    isNoteFile (generate_filename (intToString i) title) = true := by
  unfold isNoteFile
  rw [Bool.and_eq_true]
  constructor
  · show List.isSuffixOf ['.', 'm', 'd']
      ((intToString i).data ++ '_' :: ((List.intersperse ['_'] (titleWords title)).flatten.take 30 ++ ['.', 'm', 'd'])) = true
    have e : (intToString i).data ++ '_' :: ((List.intersperse ['_'] (titleWords title)).flatten.take 30 ++ ['.', 'm', 'd'])
        = ((intToString i).data ++ '_' :: (List.intersperse ['_'] (titleWords title)).flatten.take 30) ++ ['.', 'm', 'd'] := by
      simp
    rw [e]
    exact isSuffixOf_append_self _ _
  · cases hl : (intToString i).data with
    | nil => exact absurd hl (intToString_ne_nil i)
    | cons a rest =>
      have ha : a ∈ (intToString i).data := by rw [hl]; exact List.mem_cons_self a rest
      have hne : a ≠ '.' := by
        rcases intToString_chars i a ha with h | h
        · exact isDig_ne_dot h
        · subst h; decide
      show (!((generate_filename (intToString i) title).data.headI = '.' : Bool)) = true
      have e2 : (generate_filename (intToString i) title).data
          = (intToString i).data ++ '_' :: ((List.intersperse ['_'] (titleWords title)).flatten.take 30 ++ ['.', 'm', 'd']) := rfl
      rw [e2, hl]
      simp [List.headI, hne]

theorem fresh_filename (s : Store) (title : String) :
    generate_filename (get_next_id s) title ∉ s.map (fun f => f.name) := by
  intro hmem
  have hnote := isNoteFile_generate (get_next_id_int s) title
  have hfl : generate_filename (get_next_id s) title ∈ list_note_files s :=
    List.mem_filter.mpr ⟨hmem, hnote⟩
  have hpid := parsedId_generate (get_next_id_int s) title
  have hin : get_next_id_int s ∈ parsedIds s :=
    List.mem_filterMap.mpr ⟨generate_filename (get_next_id s) title, hfl, hpid⟩
  exact absurd (parsedIds_lt_next s (get_next_id_int s) hin) (lt_irrefl _)

theorem new_note_eq_append (s : Store) (title now : String) (ht : title ≠ "") :
    new_note s title now =
      s ++ [⟨generate_filename (get_next_id s) title,
             some (noteTemplate title (get_next_id s) now)⟩] := by
  unfold new_note
  rw [if_neg ht]
  exact writeFile_not_mem s _ _ (fresh_filename s title)

theorem list_note_files_cons (f : NoteFile) (rest : Store) :
    list_note_files (f :: rest) =
      if isNoteFile f.name = true then f.name :: list_note_files rest
      else list_note_files rest := by
  unfold list_note_files
  rw [List.map_cons, List.filter_cons]

theorem parsedIds_cons (f : NoteFile) (rest : Store) :
    parsedIds (f :: rest) =
      (if isNoteFile f.name = true then (parsedId f.name).toList else []) ++ parsedIds rest := by
  unfold parsedIds
  rw [list_note_files_cons]
  by_cases hnf : isNoteFile f.name = true
  · rw [if_pos hnf, if_pos hnf]
    cases hp : parsedId f.name with
    | none => rw [List.filterMap_cons_none hp]; simp
    | some v => rw [List.filterMap_cons_some hp]; simp
  · rw [if_neg hnf, if_neg hnf]
    simp

theorem parsedIds_new_note (s : Store) (title now : String) (ht : title ≠ "") :
    parsedIds (new_note s title now) = parsedIds s ++ [get_next_id_int s] := by
  rw [new_note_eq_append s title now ht, parsedIds_append, parsedIds_cons]
  dsimp only
  have hg : get_next_id s = intToString (get_next_id_int s) := rfl
  rw [hg, isNoteFile_generate (get_next_id_int s) title, parsedId_generate (get_next_id_int s) title]
  simp [parsedIds, list_note_files]

theorem parsedIds_removeFile_none (s : Store) (n : String) (h : parsedId n = none) :
    parsedIds (removeFile s n) = parsedIds s := by
  induction s with
  | nil => rfl
  | cons f rest ih =>
    by_cases hf : f.name = n
    · have e : removeFile (f :: rest) n = removeFile rest n := by
        simp [removeFile, List.filter_cons, hf]
      have hpn : parsedId f.name = none := by rw [hf]; exact h
      rw [e, ih, parsedIds_cons, hpn]
      simp
    · have e : removeFile (f :: rest) n = f :: removeFile rest n := by
        simp [removeFile, List.filter_cons, hf]
      rw [e, parsedIds_cons, parsedIds_cons, ih]

/-! ### Claim C1 -/

/-- C1: for every sequence of N create operations (each with a valid title)
on a store whose parsable filename prefixes are non-negative, the N created
notes receive N distinct positive integer ids (the allocated sequence is
strictly increasing), and the allocator never produces an id equal to the
numeric prefix of any file already present in the store — neither a file
present initially nor one created earlier in the sequence. -/
theorem c1_create_ids_distinct_positive (s : Store) (ops : List (String × String))
    (hvalid : ∀ p ∈ ops, p.1 ≠ "")
    (h0 : ∀ j ∈ parsedIds s, 0 ≤ j) :
    (createdIds s ops).Pairwise (· < ·) ∧
    (∀ i ∈ createdIds s ops, 0 < i) ∧
    (∀ j ∈ parsedIds s, ∀ i ∈ createdIds s ops, j < i) := by
  induction ops generalizing s with
  | nil =>
    exact ⟨List.Pairwise.nil, fun i hi => absurd hi (List.not_mem_nil i),
      fun j hj i hi => absurd hi (List.not_mem_nil i)⟩
  | cons p ps ih =>
    have hp1 : p.1 ≠ "" := hvalid p (List.mem_cons_self p ps)
    have hids : parsedIds (new_note s p.1 p.2) = parsedIds s ++ [get_next_id_int s] :=
      parsedIds_new_note s p.1 p.2 hp1
    have hpos : 1 ≤ get_next_id_int s := one_le_next s h0
    have h0n : ∀ j ∈ parsedIds (new_note s p.1 p.2), 0 ≤ j := by
      intro j hj
      rw [hids] at hj
      rcases List.mem_append.mp hj with hj | hj
      · exact h0 j hj
      · rw [List.mem_singleton] at hj
        subst hj
        omega
    have hvn : ∀ q ∈ ps, q.1 ≠ "" := fun q hq => hvalid q (List.mem_cons_of_mem _ hq)
    obtain ⟨ih1, ih2, ih3⟩ := ih (new_note s p.1 p.2) hvn h0n
    have hc : createdIds s (p :: ps) =
        get_next_id_int s :: createdIds (new_note s p.1 p.2) ps := rfl
    rw [hc]
    have hmem : get_next_id_int s ∈ parsedIds (new_note s p.1 p.2) := by
      rw [hids]
      exact List.mem_append.mpr (Or.inr (List.mem_singleton.mpr rfl))
    refine ⟨List.pairwise_cons.mpr ⟨?_, ih1⟩, ?_, ?_⟩
    · intro i hi
      exact ih3 (get_next_id_int s) hmem i hi
    · intro i hi
      rcases List.mem_cons.mp hi with hi | hi
      · subst hi; omega
      · exact ih2 i hi
    · intro j hj i hi
      rcases List.mem_cons.mp hi with hi | hi
      · subst hi
        exact parsedIds_lt_next s j hj
      · exact ih3 j (by rw [hids]; exact List.mem_append.mpr (Or.inl hj)) i hi

/-- Witness for C1 at a concrete store and two creates. -/
theorem c1_create_ids_distinct_positive_witness :
    ((∀ p ∈ ([("title one", "t1"), ("title two", "t2")] : List (String × String)), p.1 ≠ "") ∧
     (∀ j ∈ parsedIds [⟨"1_a.md", some "x"⟩], 0 ≤ j)) ∧
    ((createdIds [⟨"1_a.md", some "x"⟩] [("title one", "t1"), ("title two", "t2")]).Pairwise (· < ·) ∧
     (∀ i ∈ createdIds [⟨"1_a.md", some "x"⟩] [("title one", "t1"), ("title two", "t2")], 0 < i) ∧
     (∀ j ∈ parsedIds [⟨"1_a.md", some "x"⟩],
        ∀ i ∈ createdIds [⟨"1_a.md", some "x"⟩] [("title one", "t1"), ("title two", "t2")], j < i)) :=
  ⟨⟨by decide, by decide⟩,
   c1_create_ids_distinct_positive [⟨"1_a.md", some "x"⟩]
     [("title one", "t1"), ("title two", "t2")] (by decide) (by decide)⟩

/-! ### Claim C2 -/

/-- C2: `get_next_id` returns the maximum of the integer prefixes (before the
first underscore) of the note filenames plus one, `1` when no filename has a
parsable prefix; a file with a malformed prefix is silently skipped (its
presence does not change the result); with existing ids 1, 2, 5 it returns 6. -/
theorem c2_next_id_is_max_plus_one (s : Store) :
    (parsedIds s = [] → get_next_id_int s = 1) ∧
    (parsedIds s ≠ [] →
      (∀ i ∈ parsedIds s, i < get_next_id_int s) ∧ get_next_id_int s - 1 ∈ parsedIds s) ∧
    (∀ name c, parsedId name = none →
      get_next_id_int (s ++ [⟨name, c⟩]) = get_next_id_int s) ∧
    get_next_id_int [⟨"1_a.md", some ""⟩, ⟨"2_b.md", some ""⟩, ⟨"5_c.md", some ""⟩] = 6 ∧
    get_next_id [⟨"1_a.md", some ""⟩, ⟨"2_b.md", some ""⟩, ⟨"5_c.md", some ""⟩] = "6" := by
  refine ⟨?_, ?_, ?_, by decide, by decide⟩
  · intro h
    unfold get_next_id_int
    rw [h]
  · intro h
    refine ⟨parsedIds_lt_next s, ?_⟩
    cases hp : parsedIds s with
    | nil => exact absurd hp h
    | cons x xs =>
      have e : get_next_id_int s = xs.foldl max x + 1 := by
        unfold get_next_id_int
        rw [hp]
      rw [e]
      have e2 : xs.foldl max x + 1 - 1 = xs.foldl max x := by omega
      rw [e2]
      exact foldl_max_mem xs x
  · intro name c hnone
    have hids : parsedIds (s ++ [⟨name, c⟩]) = parsedIds s := by
      rw [parsedIds_append, parsedIds_cons]
      dsimp only
      rw [hnone]
      simp [parsedIds, list_note_files]
    unfold get_next_id_int
    rw [hids]

/-- Witness for C2: the gap-tolerant branch at ids 1, 2, 5 and the
skip-malformed branch at a non-numeric prefix. -/
theorem c2_next_id_is_max_plus_one_witness :
    (parsedIds [⟨"1_a.md", some ""⟩, ⟨"2_b.md", some ""⟩, ⟨"5_c.md", some ""⟩] ≠ [] ∧
     parsedId "x_b.md" = none) ∧
    ((∀ i ∈ parsedIds [⟨"1_a.md", some ""⟩, ⟨"2_b.md", some ""⟩, ⟨"5_c.md", some ""⟩],
        i < get_next_id_int [⟨"1_a.md", some ""⟩, ⟨"2_b.md", some ""⟩, ⟨"5_c.md", some ""⟩]) ∧
      get_next_id_int [⟨"1_a.md", some ""⟩, ⟨"2_b.md", some ""⟩, ⟨"5_c.md", some ""⟩] - 1 ∈
        parsedIds [⟨"1_a.md", some ""⟩, ⟨"2_b.md", some ""⟩, ⟨"5_c.md", some ""⟩]) ∧
    get_next_id_int ([⟨"1_a.md", some ""⟩, ⟨"2_b.md", some ""⟩, ⟨"5_c.md", some ""⟩] ++
        [⟨"x_b.md", some ""⟩]) =
      get_next_id_int [⟨"1_a.md", some ""⟩, ⟨"2_b.md", some ""⟩, ⟨"5_c.md", some ""⟩] :=
  ⟨⟨by decide, by decide⟩,
   (c2_next_id_is_max_plus_one
      [⟨"1_a.md", some ""⟩, ⟨"2_b.md", some ""⟩, ⟨"5_c.md", some ""⟩]).2.1 (by decide),
   (c2_next_id_is_max_plus_one
      [⟨"1_a.md", some ""⟩, ⟨"2_b.md", some ""⟩, ⟨"5_c.md", some ""⟩]).2.2.1
     "x_b.md" (some "") (by decide)⟩

/-! ### Claim C3 -/

/-- C3: when every note file's prefix parses, the listing succeeds and
returns the filenames sorted ascending by their parsed integer prefix
(a permutation of the unsorted listing); ids 2, 10, 1 come out as 1, 2, 10,
not in lexicographic order. -/
theorem c3_listing_sorted_numeric :
    (∀ s : Store, (∀ f ∈ list_note_files s, (parsedId f).isSome = true) →
      ∃ l, refresh_list s = some l ∧ l.Perm (list_note_files s) ∧
        l.Pairwise (fun a b => listKey a ≤ listKey b)) ∧
    refresh_list [⟨"2_a.md", some ""⟩, ⟨"10_b.md", some ""⟩, ⟨"1_c.md", some ""⟩] =
      some ["1_c.md", "2_a.md", "10_b.md"] := by
  constructor
  · intro s h
    have hall : (list_note_files s).all (fun f => (parsedId f).isSome) = true :=
      List.all_eq_true.mpr h
    refine ⟨(list_note_files s).insertionSort (fun a b => listKey a ≤ listKey b), ?_, ?_, ?_⟩
    · simp only [refresh_list]
      rw [if_pos hall]
    · exact List.perm_insertionSort _ _
    · haveI : IsTotal String (fun a b => listKey a ≤ listKey b) := ⟨fun a b => Int.le_total _ _⟩
      haveI : IsTrans String (fun a b => listKey a ≤ listKey b) :=
        ⟨fun a b c h1 h2 => le_trans h1 h2⟩
      exact List.sorted_insertionSort _ _
  · decide

/-- Witness for C3 at a store with ids 2, 10, 1. -/
theorem c3_listing_sorted_numeric_witness :
    (∀ f ∈ list_note_files [⟨"2_a.md", some ""⟩, ⟨"10_b.md", some ""⟩, ⟨"1_c.md", some ""⟩],
      (parsedId f).isSome = true) ∧
    (∃ l, refresh_list [⟨"2_a.md", some ""⟩, ⟨"10_b.md", some ""⟩, ⟨"1_c.md", some ""⟩] = some l ∧
      l.Perm (list_note_files [⟨"2_a.md", some ""⟩, ⟨"10_b.md", some ""⟩, ⟨"1_c.md", some ""⟩]) ∧
      l.Pairwise (fun a b => listKey a ≤ listKey b)) :=
  ⟨by decide,
   c3_listing_sorted_numeric.1 [⟨"2_a.md", some ""⟩, ⟨"10_b.md", some ""⟩, ⟨"1_c.md", some ""⟩]
     (by decide)⟩

/-! ### Claim C10 -/

/-- C10: a note file whose prefix before the first underscore does not parse
as an integer makes the listing operation raise (return no listing), while
the id allocator silently skips such a file: removing it does not change the
allocator's result. Concretely, with files `1_a.md` and `x_b.md` the listing
raises while `get_next_id` still returns `"2"`. -/
theorem c10_listing_raises_on_malformed (s : Store) (f : String)
    (hf : f ∈ list_note_files s) (hbad : parsedId f = none) :
    refresh_list s = none ∧
    get_next_id_int (removeFile s f) = get_next_id_int s ∧
    get_next_id (removeFile s f) = get_next_id s ∧
    refresh_list [⟨"1_a.md", some ""⟩, ⟨"x_b.md", some ""⟩] = none ∧
    get_next_id [⟨"1_a.md", some ""⟩, ⟨"x_b.md", some ""⟩] = "2" := by
  have hids := parsedIds_removeFile_none s f hbad
  refine ⟨?_, ?_, ?_, by decide, by decide⟩
  · have hcond : ¬((list_note_files s).all (fun g => (parsedId g).isSome) = true) := by
      intro hall
      have := List.all_eq_true.mp hall f hf
      rw [hbad] at this
      simp at this
    simp only [refresh_list]
    rw [if_neg hcond]
  · unfold get_next_id_int
    rw [hids]
  · show intToString (get_next_id_int (removeFile s f)) = intToString (get_next_id_int s)
    unfold get_next_id_int
    rw [hids]

/-- Witness for C10 at the store with files `1_a.md` and `x_b.md`. -/
theorem c10_listing_raises_on_malformed_witness :
    ("x_b.md" ∈ list_note_files [⟨"1_a.md", some ""⟩, ⟨"x_b.md", some ""⟩] ∧
     parsedId "x_b.md" = none) ∧
    refresh_list [⟨"1_a.md", some ""⟩, ⟨"x_b.md", some ""⟩] = none ∧
    get_next_id_int (removeFile [⟨"1_a.md", some ""⟩, ⟨"x_b.md", some ""⟩] "x_b.md") =
      get_next_id_int [⟨"1_a.md", some ""⟩, ⟨"x_b.md", some ""⟩] :=
  ⟨⟨by decide, by decide⟩,
   (c10_listing_raises_on_malformed [⟨"1_a.md", some ""⟩, ⟨"x_b.md", some ""⟩] "x_b.md"
      (by decide) (by decide)).1,
   (c10_listing_raises_on_malformed [⟨"1_a.md", some ""⟩, ⟨"x_b.md", some ""⟩] "x_b.md"
      (by decide) (by decide)).2.1⟩

/-! ### Claim C6 -/

theorem backlinksGo_mem (s : Store) (pat : String) :
    ∀ (files : List String) (f : String),
      f ∈ backlinksGo s pat files ↔
        f ∈ files ∧ ∃ c, readNote s f = some c ∧ containsSub c pat = true := by
  intro files
  induction files with
  | nil => intro f; simp [backlinksGo]
  | cons g rest ih =>
    intro f
    cases hr : readNote s g with
    | none =>
      have e : backlinksGo s pat (g :: rest) = backlinksGo s pat rest := by
        simp [backlinksGo, hr]
      rw [e, ih f]
      constructor
      · rintro ⟨hf, hc⟩
        exact ⟨List.mem_cons_of_mem _ hf, hc⟩
      · rintro ⟨hf, c, hc1, hc2⟩
        rcases List.mem_cons.mp hf with hf | hf
        · subst hf
          rw [hr] at hc1
          cases hc1
        · exact ⟨hf, c, hc1, hc2⟩
    | some c =>
      by_cases hcs : containsSub c pat = true
      · have e : backlinksGo s pat (g :: rest) = g :: backlinksGo s pat rest := by
          simp [backlinksGo, hr, hcs]
        rw [e]
        constructor
        · intro hf
          rcases List.mem_cons.mp hf with hf | hf
          · subst hf
            exact ⟨List.mem_cons_self _ _, c, hr, hcs⟩
          · obtain ⟨h1, h2⟩ := (ih f).mp hf
            exact ⟨List.mem_cons_of_mem _ h1, h2⟩
        · rintro ⟨hf, d, hd1, hd2⟩
          rcases List.mem_cons.mp hf with hf | hf
          · subst hf
            exact List.mem_cons_self _ _
          · exact List.mem_cons_of_mem _ ((ih f).mpr ⟨hf, d, hd1, hd2⟩)
      · have e : backlinksGo s pat (g :: rest) = backlinksGo s pat rest := by
          simp [backlinksGo, hr, hcs]
        rw [e, ih f]
        constructor
        · rintro ⟨hf, hc⟩
          exact ⟨List.mem_cons_of_mem _ hf, hc⟩
        · rintro ⟨hf, d, hd1, hd2⟩
          rcases List.mem_cons.mp hf with hf | hf
          · subst hf
            rw [hr] at hd1
            have hcd : c = d := Option.some.inj hd1
            subst hcd
            exact absurd hd2 hcs
          · exact ⟨hf, d, hd1, hd2⟩

/-- C6: `find_backlinks(id)` returns exactly the note filenames whose content
is readable and contains the literal substring `[[id]]`; the note itself is
not excluded (a self-link lists the note in its own backlinks) and an
unreadable file is skipped without aborting the scan, as the concrete store
with a self-linking `1_a.md`, an unreadable `2_b.md` and a linking `3_c.md`
shows. -/
theorem c6_backlinks_exact_matches :
    (∀ (s : Store) (note_id f : String),
      f ∈ find_backlinks s note_id ↔
        f ∈ list_note_files s ∧
        ∃ c, readNote s f = some c ∧ containsSub c ("[[" ++ note_id ++ "]]") = true) ∧
    find_backlinks
        [⟨"1_a.md", some "see [[1]]"⟩, ⟨"2_b.md", none⟩, ⟨"3_c.md", some "ref [[1]] x"⟩] "1"
      = ["1_a.md", "3_c.md"] := by
  constructor
  · intro s note_id f
    exact backlinksGo_mem s ("[[" ++ note_id ++ "]]") (list_note_files s) f
  · decide

/-! ### Claim C7 -/

/-- C7 is refuted: a whitespace-only title does not fail validation — the
code only rejects the falsy empty string, so `new_note` with title `" "`
creates the note file `1_.md` (empty slug) instead of failing. -/
theorem c7_counterexample_whitespace_title_creates :
    list_note_files (new_note [] " " "2020-01-01T00:00:00") = ["1_.md"] := by
  decide

/-- C7 (amended): only the empty title aborts note creation, and it does so
silently (the store is unchanged, no error of any kind is raised — the code
has no `ValidationError`); every non-empty title, including whitespace-only
ones, creates a note file named by the allocated id. -/
theorem c7_amended_create_validation (s : Store) (title now : String) :
    (new_note s "" now = s) ∧
    (title ≠ "" →
      generate_filename (get_next_id s) title ∈ list_note_files (new_note s title now)) := by
  constructor
  · simp [new_note]
  · intro ht
    rw [new_note_eq_append s title now ht, list_note_files_append]
    apply List.mem_append.mpr
    right
    rw [list_note_files_cons]
    dsimp only
    have hg : get_next_id s = intToString (get_next_id_int s) := rfl
    rw [hg, isNoteFile_generate (get_next_id_int s) title, if_pos rfl]
    exact List.mem_cons_self _ _

/-- Witness for the amended C7 at the whitespace-only title. -/
theorem c7_amended_create_validation_witness :
    (" " ≠ ("" : String)) ∧
    generate_filename (get_next_id ([] : Store)) " " ∈
      list_note_files (new_note [] " " "2020-01-01T00:00:00") :=
  ⟨by decide, (c7_amended_create_validation [] " " "2020-01-01T00:00:00").2 (by decide)⟩

/-! ### Claim C8 -/

theorem lexLe_total : ∀ a b : List Char, lexLe a b = true ∨ lexLe b a = true := by
  intro a
  induction a with
  | nil => intro b; left; rfl
  | cons x xs ih =>
    intro b
    cases b with
    | nil => right; rfl
    | cons y ys =>
      by_cases h1 : x.toNat < y.toNat
      · left
        simp [lexLe, h1]
      · by_cases h2 : y.toNat < x.toNat
        · right
          simp [lexLe, h2]
        · have e1 : lexLe (x :: xs) (y :: ys) = lexLe xs ys := by
            simp [lexLe, h1, h2]
          have e2 : lexLe (y :: ys) (x :: xs) = lexLe ys xs := by
            simp [lexLe, h1, h2]
          rw [e1, e2]
          exact ih ys

theorem lexLe_trans :
    ∀ a b c : List Char, lexLe a b = true → lexLe b c = true → lexLe a c = true := by
  intro a
  induction a with
  | nil => intro b c h1 h2; rfl
  | cons x xs ih =>
    intro b c h1 h2
    cases b with
    | nil => exact absurd h1 (by simp [lexLe])
    | cons y ys =>
      cases c with
      | nil => exact absurd h2 (by simp [lexLe])
      | cons z zs =>
        simp only [lexLe] at h1 h2 ⊢
        by_cases hxy : x.toNat < y.toNat
        · by_cases hyz : y.toNat < z.toNat
          · rw [if_pos (by omega : x.toNat < z.toNat)]
          · by_cases hzy : z.toNat < y.toNat
            · rw [if_neg hyz, if_pos hzy] at h2
              simp at h2
            · rw [if_pos (by omega : x.toNat < z.toNat)]
        · by_cases hyx : y.toNat < x.toNat
          · rw [if_neg hxy, if_pos hyx] at h1
            simp at h1
          · rw [if_neg hxy, if_neg hyx] at h1
            by_cases hyz : y.toNat < z.toNat
            · rw [if_pos (by omega : x.toNat < z.toNat)]
            · by_cases hzy : z.toNat < y.toNat
              · rw [if_neg hyz, if_pos hzy] at h2
                simp at h2
              · rw [if_neg hyz, if_neg hzy] at h2
                rw [if_neg (by omega : ¬ x.toNat < z.toNat),
                  if_neg (by omega : ¬ z.toNat < x.toNat)]
                exact ih ys zs h1 h2

theorem collectTags_mem (s : Store) :
    ∀ (files : List String) (t : String),
      t ∈ collectTags s files ↔
        ∃ f ∈ files, ∃ c, readNote s f = some c ∧ t ∈ findTags c := by
  intro files
  induction files with
  | nil => intro t; simp [collectTags]
  | cons g rest ih =>
    intro t
    cases hr : readNote s g with
    | none =>
      have e : collectTags s (g :: rest) = collectTags s rest := by
        simp [collectTags, hr]
      rw [e, ih t]
      constructor
      · rintro ⟨f, hf, hc⟩
        exact ⟨f, List.mem_cons_of_mem _ hf, hc⟩
      · rintro ⟨f, hf, c, hc1, hc2⟩
        rcases List.mem_cons.mp hf with hf | hf
        · subst hf
          rw [hr] at hc1
          cases hc1
        · exact ⟨f, hf, c, hc1, hc2⟩
    | some c =>
      have e : collectTags s (g :: rest) = findTags c ++ collectTags s rest := by
        simp [collectTags, hr]
      rw [e, List.mem_append, ih t]
      constructor
      · rintro (ht | ⟨f, hf, hc⟩)
        · exact ⟨g, List.mem_cons_self _ _, c, hr, ht⟩
        · exact ⟨f, List.mem_cons_of_mem _ hf, hc⟩
      · rintro ⟨f, hf, d, hd1, hd2⟩
        rcases List.mem_cons.mp hf with hf | hf
        · subst hf
          rw [hr] at hd1
          have hcd : c = d := Option.some.inj hd1
          subst hcd
          exact Or.inl hd2
        · exact Or.inr ⟨f, hf, d, hd1, hd2⟩

theorem tagsAux_shape : ∀ l : List Char,
    (∀ w ∈ tagsAux none l, w ≠ [] ∧ ∀ c ∈ w, isWordChar c = true) ∧
    (∀ acc, (∀ c ∈ acc, isWordChar c = true) →
      ∀ w ∈ tagsAux (some acc) l, w ≠ [] ∧ ∀ c ∈ w, isWordChar c = true) := by
  intro l
  induction l with
  | nil =>
    constructor
    · intro w hw
      simp [tagsAux] at hw
    · intro acc hacc w hw
      simp only [tagsAux] at hw
      by_cases ha : acc = []
      · rw [if_pos ha] at hw
        simp at hw
      · rw [if_neg ha] at hw
        rw [List.mem_singleton] at hw
        subst hw
        refine ⟨by simpa using ha, ?_⟩
        intro c hc
        exact hacc c (List.mem_reverse.mp hc)
  | cons d rest ih =>
    constructor
    · intro w hw
      simp only [tagsAux] at hw
      by_cases hd : d = '#'
      · rw [if_pos hd] at hw
        exact ih.2 [] (by simp) w hw
      · rw [if_neg hd] at hw
        exact ih.1 w hw
    · intro acc hacc w hw
      simp only [tagsAux] at hw
      by_cases hw1 : isWordChar d = true
      · rw [if_pos hw1] at hw
        refine ih.2 (d :: acc) ?_ w hw
        intro c hc
        rcases List.mem_cons.mp hc with hc | hc
        · subst hc; exact hw1
        · exact hacc c hc
      · rw [if_neg hw1] at hw
        by_cases ha : acc = []
        · rw [if_pos ha] at hw
          by_cases hd : d = '#'
          · rw [if_pos hd] at hw
            exact ih.2 [] (by simp) w hw
          · rw [if_neg hd] at hw
            exact ih.1 w hw
        · rw [if_neg ha] at hw
          rcases List.mem_cons.mp hw with hw | hw
          · subst hw
            refine ⟨by simpa using ha, ?_⟩
            intro c hc
            exact hacc c (List.mem_reverse.mp hc)
          · by_cases hd : d = '#'
            · rw [if_pos hd] at hw
              exact ih.2 [] (by simp) w hw
            · rw [if_neg hd] at hw
              exact ih.1 w hw

theorem findTags_shape {c : String} {t : String} (h : t ∈ findTags c) :
    ∃ w, t.data = '#' :: w ∧ w ≠ [] ∧ ∀ ch ∈ w, isWordChar ch = true := by
  unfold findTags at h
  obtain ⟨w, hw, ht⟩ := List.mem_map.mp h
  obtain ⟨h1, h2⟩ := (tagsAux_shape c.data).1 w hw
  exact ⟨w, by rw [← ht], h1, h2⟩

/-- C8: `extract_tags()` returns exactly the distinct `#word` tokens found by
the scanner across all readable note bodies — case-sensitively and including
tokens embedded in a larger word context such as `foo#bar` — deduplicated,
in ascending lexicographic order; every returned entry is `#` followed by a
non-empty run of word characters. On the concrete store with `#project`,
`#Project`, a duplicate `#project` and `foo#bar` the result is
`["#Project", "#bar", "#project"]`. -/
theorem c8_extract_tags_sorted_dedup :
    (∀ (s : Store) (t : String),
      t ∈ extract_tags s ↔
        ∃ f ∈ list_note_files s, ∃ c, readNote s f = some c ∧ t ∈ findTags c) ∧
    (∀ s : Store, (extract_tags s).Pairwise strLe ∧ (extract_tags s).Nodup) ∧
    (∀ (s : Store) (t : String), t ∈ extract_tags s →
      ∃ w, t.data = '#' :: w ∧ w ≠ [] ∧ ∀ ch ∈ w, isWordChar ch = true) ∧
    extract_tags
        [⟨"1_a.md", some "#project and #Project foo#bar"⟩, ⟨"2_b.md", some "#project dup"⟩]
      = ["#Project", "#bar", "#project"] := by
  refine ⟨?_, ?_, ?_, by decide⟩
  · intro s t
    unfold extract_tags
    rw [(List.perm_insertionSort strLe _).mem_iff, List.mem_dedup]
    exact collectTags_mem s (list_note_files s) t
  · intro s
    haveI : IsTotal String strLe := ⟨fun a b => lexLe_total a.data b.data⟩
    haveI : IsTrans String strLe := ⟨fun a b c => lexLe_trans a.data b.data c.data⟩
    constructor
    · exact List.sorted_insertionSort strLe _
    · exact ((List.perm_insertionSort strLe _).symm.nodup (List.nodup_dedup _))
  · intro s t ht
    unfold extract_tags at ht
    rw [(List.perm_insertionSort strLe _).mem_iff, List.mem_dedup] at ht
    obtain ⟨f, hf, c, hc, htf⟩ := (collectTags_mem s (list_note_files s) t).mp ht
    exact findTags_shape htf

/-- Witness for C8: the shape clause applied to `#bar`, extracted from the
embedded `foo#bar` occurrence. -/
theorem c8_extract_tags_sorted_dedup_witness :
    ("#bar" ∈ extract_tags
        [⟨"1_a.md", some "#project and #Project foo#bar"⟩, ⟨"2_b.md", some "#project dup"⟩]) ∧
    (∃ w, ("#bar" : String).data = '#' :: w ∧ w ≠ [] ∧ ∀ ch ∈ w, isWordChar ch = true) :=
  ⟨by decide,
   c8_extract_tags_sorted_dedup.2.2.1
     [⟨"1_a.md", some "#project and #Project foo#bar"⟩, ⟨"2_b.md", some "#project dup"⟩]
     "#bar" (by decide)⟩

/-! ### Claim C9 -/

theorem searchFilter_iff (s : Store) (kw : List Char) (f : String) :
    searchFilter s kw f = true ↔
      ∃ c, readNote s f = some c ∧
        (infixCheck kw (lowerChars f.data) = true ∨ infixCheck kw (lowerChars c.data) = true) := by
  cases hr : readNote s f with
  | none => simp [searchFilter, hr]
  | some c => simp [searchFilter, hr]

/-- C9: `search_notes` with an empty or whitespace-only keyword applies no
filter (it returns exactly the full listing); with a non-empty keyword it
returns exactly the listed notes for which the stripped, lowered keyword is
a substring of the lowered filename or the lowered content (an unreadable
note is excluded). Concretely, the keyword `"ZETTEL"` matches a note whose
content contains `"zettelkasten"`, and `"   "` gives the full listing. -/
theorem c9_search_case_insensitive :
    (∀ (s : Store) (kw : String), trimChars kw.data = [] → search_notes s kw = refresh_list s) ∧
    (∀ (s : Store) (kw : String) (l : List String),
      trimChars kw.data ≠ [] → refresh_list s = some l →
      ∃ lr, search_notes s kw = some lr ∧
        ∀ f, f ∈ lr ↔ f ∈ l ∧ ∃ c, readNote s f = some c ∧
          (infixCheck (lowerChars (trimChars kw.data)) (lowerChars f.data) = true ∨
           infixCheck (lowerChars (trimChars kw.data)) (lowerChars c.data) = true)) ∧
    search_notes [⟨"1_note.md", some "about zettelkasten method"⟩] "ZETTEL" =
      some ["1_note.md"] ∧
    search_notes [⟨"1_note.md", some "about zettelkasten method"⟩] "   " =
      refresh_list [⟨"1_note.md", some "about zettelkasten method"⟩] := by
  refine ⟨?_, ?_, by decide, by decide⟩
  · intro s kw h
    simp only [search_notes, h]
    simp [lowerChars]
  · intro s kw l hne hr
    have hkw : lowerChars (trimChars kw.data) ≠ [] := by
      simpa [lowerChars] using hne
    simp only [search_notes]
    rw [if_neg hkw, hr]
    refine ⟨l.filter (searchFilter s (lowerChars (trimChars kw.data))), rfl, ?_⟩
    intro f
    rw [List.mem_filter, searchFilter_iff]

/-- Witness for C9: the no-filter branch at a whitespace keyword and the
filtering branch at keyword `"ZETTEL"`. -/
theorem c9_search_case_insensitive_witness :
    (trimChars ("   " : String).data = [] ∧
     search_notes [⟨"1_note.md", some "about zettelkasten method"⟩] "   " =
       refresh_list [⟨"1_note.md", some "about zettelkasten method"⟩]) ∧
    (trimChars ("ZETTEL" : String).data ≠ [] ∧
     refresh_list [⟨"1_note.md", some "about zettelkasten method"⟩] = some ["1_note.md"] ∧
     ∃ lr, search_notes [⟨"1_note.md", some "about zettelkasten method"⟩] "ZETTEL" = some lr ∧
       ∀ f, f ∈ lr ↔ f ∈ ["1_note.md"] ∧
         ∃ c, readNote [⟨"1_note.md", some "about zettelkasten method"⟩] f = some c ∧
           (infixCheck (lowerChars (trimChars ("ZETTEL" : String).data)) (lowerChars f.data) = true ∨
            infixCheck (lowerChars (trimChars ("ZETTEL" : String).data)) (lowerChars c.data) = true)) :=
  ⟨⟨by decide,
    c9_search_case_insensitive.1 [⟨"1_note.md", some "about zettelkasten method"⟩] "   "
      (by decide)⟩,
   by decide, by decide,
   c9_search_case_insensitive.2.1 [⟨"1_note.md", some "about zettelkasten method"⟩] "ZETTEL"
     ["1_note.md"] (by decide) (by decide)⟩

/-! ### Delete and backlink-update lemmas (C4, C5) -/

theorem cleanupLoop_success (note_id filename : String) :
    ∀ (files : List String) (s : Store),
      files.Nodup →
      (∀ f ∈ files, f ≠ filename → (readNote s f).isSome = true) →
      (cleanupLoop note_id filename files s).2 = false ∧
      ((cleanupLoop note_id filename files s).1.map (fun g => g.name) =
        s.map (fun g => g.name)) ∧
      (∀ g, g ∉ files ∨ g = filename →
        readNote (cleanupLoop note_id filename files s).1 g = readNote s g) ∧
      (∀ g ∈ files, g ≠ filename →
        readNote (cleanupLoop note_id filename files s).1 g =
          (readNote s g).map (fun c =>
            if containsSub c (delPat note_id) = true
            then pyReplace c (delPat note_id) (delRepl note_id) else c)) := by
  intro files
  induction files with
  | nil =>
    intro s hnd hr
    exact ⟨rfl, rfl, fun g _ => rfl, fun g hg => absurd hg (List.not_mem_nil g)⟩
  | cons f rest ih =>
    intro s hnd hr
    have hnd2 : rest.Nodup := hnd.of_cons
    have hfnot : f ∉ rest := (List.nodup_cons.mp hnd).1
    by_cases hff : f = filename
    · have e : cleanupLoop note_id filename (f :: rest) s =
          cleanupLoop note_id filename rest s := by
        simp [cleanupLoop, hff]
      obtain ⟨i1, i2, i3, i4⟩ :=
        ih s hnd2 (fun g hg hgn => hr g (List.mem_cons_of_mem _ hg) hgn)
      rw [e]
      refine ⟨i1, i2, ?_, ?_⟩
      · intro g hg
        apply i3
        rcases hg with hg | hg
        · exact Or.inl (fun hm => hg (List.mem_cons_of_mem _ hm))
        · exact Or.inr hg
      · intro g hg hgn
        rcases List.mem_cons.mp hg with hg | hg
        · exact absurd (hg.trans hff) hgn
        · exact i4 g hg hgn
    · have hrs := hr f (List.mem_cons_self _ _) hff
      cases hc : readNote s f with
      | none => rw [hc] at hrs; simp at hrs
      | some c =>
        by_cases hcs : containsSub c (delPat note_id) = true
        · have e : cleanupLoop note_id filename (f :: rest) s =
              cleanupLoop note_id filename rest
                (writeFile s f (pyReplace c (delPat note_id) (delRepl note_id))) := by
            simp [cleanupLoop, hff, hc, hcs]
          have hmemf : f ∈ s.map (fun q => q.name) := readNote_mem_name hc
          have hnames :
              (writeFile s f (pyReplace c (delPat note_id) (delRepl note_id))).map
                (fun q => q.name) = s.map (fun q => q.name) :=
            map_name_writeFile_mem s f _ hmemf
          have hread2 : ∀ q, q ≠ f →
              readNote (writeFile s f (pyReplace c (delPat note_id) (delRepl note_id))) q =
                readNote s q := by
            intro q hq
            rw [readNote_writeFile, if_neg hq]
          have hreadf :
              readNote (writeFile s f (pyReplace c (delPat note_id) (delRepl note_id))) f =
                some (pyReplace c (delPat note_id) (delRepl note_id)) := by
            rw [readNote_writeFile, if_pos rfl]
          have hrest : ∀ q ∈ rest, q ≠ filename →
              (readNote (writeFile s f (pyReplace c (delPat note_id) (delRepl note_id)))
                q).isSome = true := by
            intro q hq hqn
            rw [hread2 q (fun he => hfnot (he ▸ hq))]
            exact hr q (List.mem_cons_of_mem _ hq) hqn
          obtain ⟨i1, i2, i3, i4⟩ := ih _ hnd2 hrest
          rw [e]
          refine ⟨i1, by rw [i2, hnames], ?_, ?_⟩
          · intro g hg
            have hgf : g ≠ f := by
              rcases hg with hg | hg
              · exact fun he => hg (he ▸ List.mem_cons_self f rest)
              · exact fun he => hff (he.symm.trans hg)
            have hg2 : g ∉ rest ∨ g = filename := by
              rcases hg with hg | hg
              · exact Or.inl (fun hm => hg (List.mem_cons_of_mem _ hm))
              · exact Or.inr hg
            rw [i3 g hg2, hread2 g hgf]
          · intro g hg hgn
            rcases List.mem_cons.mp hg with hg | hg
            · subst hg
              rw [i3 g (Or.inl hfnot), hreadf, hc]
              simp [hcs]
            · have hgf : g ≠ f := fun he => hfnot (he ▸ hg)
              rw [i4 g hg hgn, hread2 g hgf]
        · have e : cleanupLoop note_id filename (f :: rest) s =
              cleanupLoop note_id filename rest s := by
            simp [cleanupLoop, hff, hc, hcs]
          obtain ⟨i1, i2, i3, i4⟩ :=
            ih s hnd2 (fun g hg hgn => hr g (List.mem_cons_of_mem _ hg) hgn)
          rw [e]
          refine ⟨i1, i2, ?_, ?_⟩
          · intro g hg
            apply i3
            rcases hg with hg | hg
            · exact Or.inl (fun hm => hg (List.mem_cons_of_mem _ hm))
            · exact Or.inr hg
          · intro g hg hgn
            rcases List.mem_cons.mp hg with hg | hg
            · subst hg
              rw [i3 g (Or.inl hfnot), hc]
              simp [hcs]
            · exact i4 g hg hgn

theorem cleanupLoop_abort (note_id filename g : String) (l₂ : List String) :
    ∀ (l₁ : List String) (s : Store),
      l₁.Nodup → g ∉ l₁ → g ≠ filename → readNote s g = none →
      (∀ f ∈ l₁, f ≠ filename → (readNote s f).isSome = true) →
      (cleanupLoop note_id filename (l₁ ++ g :: l₂) s).2 = true ∧
      (∀ h, h ∉ l₁ →
        readNote (cleanupLoop note_id filename (l₁ ++ g :: l₂) s).1 h = readNote s h) ∧
      (∀ h ∈ l₁, h ≠ filename →
        readNote (cleanupLoop note_id filename (l₁ ++ g :: l₂) s).1 h =
          (readNote s h).map (fun c =>
            if containsSub c (delPat note_id) = true
            then pyReplace c (delPat note_id) (delRepl note_id) else c)) := by
  intro l₁
  induction l₁ with
  | nil =>
    intro s hnd hgl hgf hgr hr
    have e : cleanupLoop note_id filename ([] ++ g :: l₂) s = (s, true) := by
      simp [cleanupLoop, hgf, hgr]
    rw [e]
    exact ⟨rfl, fun h _ => rfl, fun h hh => absurd hh (List.not_mem_nil h)⟩
  | cons f rest ih =>
    intro s hnd hgl hgf hgr hr
    have hnd2 : rest.Nodup := hnd.of_cons
    have hfnot : f ∉ rest := (List.nodup_cons.mp hnd).1
    have hgr2 : g ∉ rest := fun hm => hgl (List.mem_cons_of_mem _ hm)
    have hgnf : g ≠ f := fun he => hgl (he ▸ List.mem_cons_self f rest)
    by_cases hff : f = filename
    · have e : cleanupLoop note_id filename ((f :: rest) ++ g :: l₂) s =
          cleanupLoop note_id filename (rest ++ g :: l₂) s := by
        simp [cleanupLoop, hff]
      obtain ⟨i1, i2, i3⟩ :=
        ih s hnd2 hgr2 hgf hgr (fun q hq hqn => hr q (List.mem_cons_of_mem _ hq) hqn)
      rw [e]
      refine ⟨i1, ?_, ?_⟩
      · intro h hh
        exact i2 h (fun hm => hh (List.mem_cons_of_mem _ hm))
      · intro h hh hhn
        rcases List.mem_cons.mp hh with hh | hh
        · exact absurd (hh.trans hff) hhn
        · exact i3 h hh hhn
    · have hrs := hr f (List.mem_cons_self _ _) hff
      cases hc : readNote s f with
      | none => rw [hc] at hrs; simp at hrs
      | some c =>
        by_cases hcs : containsSub c (delPat note_id) = true
        · have e : cleanupLoop note_id filename ((f :: rest) ++ g :: l₂) s =
              cleanupLoop note_id filename (rest ++ g :: l₂)
                (writeFile s f (pyReplace c (delPat note_id) (delRepl note_id))) := by
            simp [cleanupLoop, hff, hc, hcs]
          have hread2 : ∀ q, q ≠ f →
              readNote (writeFile s f (pyReplace c (delPat note_id) (delRepl note_id))) q =
                readNote s q := by
            intro q hq
            rw [readNote_writeFile, if_neg hq]
          have hreadf :
              readNote (writeFile s f (pyReplace c (delPat note_id) (delRepl note_id))) f =
                some (pyReplace c (delPat note_id) (delRepl note_id)) := by
            rw [readNote_writeFile, if_pos rfl]
          have hrest : ∀ q ∈ rest, q ≠ filename →
              (readNote (writeFile s f (pyReplace c (delPat note_id) (delRepl note_id)))
                q).isSome = true := by
            intro q hq hqn
            rw [hread2 q (fun he => hfnot (he ▸ hq))]
            exact hr q (List.mem_cons_of_mem _ hq) hqn
          have hgr3 :
              readNote (writeFile s f (pyReplace c (delPat note_id) (delRepl note_id))) g =
                none := by
            rw [hread2 g hgnf]
            exact hgr
          obtain ⟨i1, i2, i3⟩ := ih _ hnd2 hgr2 hgf hgr3 hrest
          rw [e]
          refine ⟨i1, ?_, ?_⟩
          · intro h hh
            have hhf : h ≠ f := fun he => hh (he ▸ List.mem_cons_self f rest)
            rw [i2 h (fun hm => hh (List.mem_cons_of_mem _ hm)), hread2 h hhf]
          · intro h hh hhn
            rcases List.mem_cons.mp hh with hh | hh
            · subst hh
              rw [i2 h hfnot, hreadf, hc]
              simp [hcs]
            · have hhf : h ≠ f := fun he => hfnot (he ▸ hh)
              rw [i3 h hh hhn, hread2 h hhf]
        · have e : cleanupLoop note_id filename ((f :: rest) ++ g :: l₂) s =
              cleanupLoop note_id filename (rest ++ g :: l₂) s := by
            simp [cleanupLoop, hff, hc, hcs]
          obtain ⟨i1, i2, i3⟩ :=
            ih s hnd2 hgr2 hgf hgr (fun q hq hqn => hr q (List.mem_cons_of_mem _ hq) hqn)
          rw [e]
          refine ⟨i1, ?_, ?_⟩
          · intro h hh
            exact i2 h (fun hm => hh (List.mem_cons_of_mem _ hm))
          · intro h hh hhn
            rcases List.mem_cons.mp hh with hh | hh
            · subst hh
              rw [i2 h hfnot, hc]
              simp [hcs]
            · exact i3 h hh hhn

theorem mem_map_name_removeFile {s : Store} {n f : String} (h : f ≠ n) :
    f ∈ (removeFile s n).map (fun g => g.name) ↔ f ∈ s.map (fun g => g.name) := by
  induction s with
  | nil => simp [removeFile]
  | cons g rest ih =>
    by_cases hg : g.name = n
    · have e : removeFile (g :: rest) n = removeFile rest n := by
        simp [removeFile, List.filter_cons, hg]
      rw [e, ih]
      constructor
      · exact fun hm => List.mem_cons_of_mem _ hm
      · intro hm
        rcases List.mem_cons.mp hm with hm | hm
        · exact absurd (hm.trans hg) h
        · exact hm
    · have e : removeFile (g :: rest) n = g :: removeFile rest n := by
        simp [removeFile, List.filter_cons, hg]
      rw [e, List.map_cons, List.map_cons, List.mem_cons, List.mem_cons, ih]

/-! ### Claim C4 -/

/-- C4: a successful delete (the note file exists; every other listed note
file is readable) reports no error, removes the note's file from the store
and its listing, and rewrites every other note file whose content contains
the literal `[[id]]`, replacing every occurrence with `(deleted note id)`
via the replace-all transformation (files without the token keep their
content). Concretely, deleting note A (`1_a.md`) rewrites B (`2_b.md`,
containing `[[1]]`) to show `(deleted note 1)`, and A is gone from the
listing. -/
theorem c4_delete_removes_and_rewrites (s : Store) (note_id filename : String)
    (hnd : (s.map (fun f => f.name)).Nodup)
    (hmem : filename ∈ s.map (fun f => f.name))
    (hread : ∀ f ∈ list_note_files (removeFile s filename), f ≠ filename →
      (readNote (removeFile s filename) f).isSome = true) :
    (delete_note s note_id filename).2 = false ∧
    filename ∉ (delete_note s note_id filename).1.map (fun f => f.name) ∧
    filename ∉ list_note_files (delete_note s note_id filename).1 ∧
    (∀ f ∈ list_note_files s, f ≠ filename → ∀ c, readNote s f = some c →
      readNote (delete_note s note_id filename).1 f =
        some (if containsSub c (delPat note_id) = true
              then pyReplace c (delPat note_id) (delRepl note_id) else c)) ∧
    readNote (delete_note [⟨"1_a.md", some "note a"⟩, ⟨"2_b.md", some "see [[1]] ok"⟩]
        "1" "1_a.md").1 "2_b.md" = some "see (deleted note 1) ok" ∧
    "1_a.md" ∉ list_note_files (delete_note
        [⟨"1_a.md", some "note a"⟩, ⟨"2_b.md", some "see [[1]] ok"⟩] "1" "1_a.md").1 := by
  have e : delete_note s note_id filename =
      cleanupLoop note_id filename (list_note_files (removeFile s filename))
        (removeFile s filename) := by
    simp [delete_note, hmem]
  have hndl : (list_note_files (removeFile s filename)).Nodup := by
    have h1 : (removeFile s filename).Sublist s := List.filter_sublist s
    have h2 : ((removeFile s filename).map (fun f => f.name)).Sublist
        (s.map (fun f => f.name)) := h1.map _
    have h3 : (list_note_files (removeFile s filename)).Sublist
        ((removeFile s filename).map (fun f => f.name)) := List.filter_sublist _
    exact List.Nodup.sublist (h3.trans h2) hnd
  obtain ⟨i1, i2, i3, i4⟩ := cleanupLoop_success note_id filename
    (list_note_files (removeFile s filename)) (removeFile s filename) hndl hread
  have hnames : (delete_note s note_id filename).1.map (fun f => f.name) =
      (removeFile s filename).map (fun f => f.name) := by
    rw [e]; exact i2
  have hnomem : filename ∉ (delete_note s note_id filename).1.map (fun f => f.name) := by
    rw [hnames]
    exact not_mem_map_name_removeFile s filename
  refine ⟨by rw [e]; exact i1, hnomem, ?_, ?_, by decide, by decide⟩
  · intro hlist
    exact hnomem (mem_name_of_mem_list_note_files hlist)
  · intro f hf hfn c hc
    have hfm : f ∈ (removeFile s filename).map (fun g => g.name) :=
      (mem_map_name_removeFile hfn).mpr (mem_name_of_mem_list_note_files hf)
    have hf2 : f ∈ list_note_files (removeFile s filename) :=
      List.mem_filter.mpr ⟨hfm, (List.mem_filter.mp hf).2⟩
    have hrc : readNote (removeFile s filename) f = some c := by
      rw [readNote_removeFile s filename f hfn]
      exact hc
    rw [e, i4 f hf2 hfn, hrc]
    rfl

/-- Witness for C4 at the two-note store of the delete-and-cleanup example. -/
theorem c4_delete_removes_and_rewrites_witness :
    (([⟨"1_a.md", some "note a"⟩, ⟨"2_b.md", some "see [[1]] ok"⟩] : Store).map
        (fun f => f.name)).Nodup ∧
    "1_a.md" ∈ ([⟨"1_a.md", some "note a"⟩, ⟨"2_b.md", some "see [[1]] ok"⟩] : Store).map
        (fun f => f.name) ∧
    (∀ f ∈ list_note_files (removeFile
        [⟨"1_a.md", some "note a"⟩, ⟨"2_b.md", some "see [[1]] ok"⟩] "1_a.md"), f ≠ "1_a.md" →
      (readNote (removeFile [⟨"1_a.md", some "note a"⟩, ⟨"2_b.md", some "see [[1]] ok"⟩]
        "1_a.md") f).isSome = true) ∧
    (delete_note [⟨"1_a.md", some "note a"⟩, ⟨"2_b.md", some "see [[1]] ok"⟩]
        "1" "1_a.md").2 = false :=
  ⟨by decide, by decide, by decide,
   (c4_delete_removes_and_rewrites
      [⟨"1_a.md", some "note a"⟩, ⟨"2_b.md", some "see [[1]] ok"⟩] "1" "1_a.md"
      (by decide) (by decide) (by decide)).1⟩

/-! ### Claim C5 -/

/-- C5 is refuted: the backlink-update loop does not continue past an
individual failure. In the concrete store, deleting `1_a.md` rewrites the
affected `2_b.md`, then hits the unreadable `3_c.md`; the raised exception
aborts the loop, so the later affected file `4_d.md` still contains
`[[1]]` untouched, and only the generic error dialog flag is reported —
there is no partial-failure value carrying cleaned and failed file lists. -/
theorem c5_counterexample_cleanup_stops_at_failure :
    (delete_note [⟨"1_a.md", some "a"⟩, ⟨"2_b.md", some "x [[1]] y"⟩, ⟨"3_c.md", none⟩,
        ⟨"4_d.md", some "z [[1]]"⟩] "1" "1_a.md").2 = true ∧
    readNote (delete_note [⟨"1_a.md", some "a"⟩, ⟨"2_b.md", some "x [[1]] y"⟩, ⟨"3_c.md", none⟩,
        ⟨"4_d.md", some "z [[1]]"⟩] "1" "1_a.md").1 "2_b.md" = some "x (deleted note 1) y" ∧
    readNote (delete_note [⟨"1_a.md", some "a"⟩, ⟨"2_b.md", some "x [[1]] y"⟩, ⟨"3_c.md", none⟩,
        ⟨"4_d.md", some "z [[1]]"⟩] "1" "1_a.md").1 "4_d.md" = some "z [[1]]" ∧
    containsSub "z [[1]]" (delPat "1") = true := by
  decide

/-- C5 (amended): when the backlink-update loop hits a failing file `g`
(unreadable), the loop aborts there instead of continuing: the delete
reports the generic error flag, the files processed before `g` keep their
rewrites (an affected file among them stays rewritten), and every file not
processed before `g` — including later affected files — keeps exactly the
content it had right after the removal; nothing is rolled back, and no
partial-failure value with cleaned/failed lists is produced, only the
boolean error report. -/
theorem c5_amended_cleanup_aborts (s : Store) (note_id filename g : String)
    (l₁ l₂ : List String)
    (hmem : filename ∈ s.map (fun f => f.name))
    (hsplit : list_note_files (removeFile s filename) = l₁ ++ g :: l₂)
    (hnd : l₁.Nodup) (hgl : g ∉ l₁) (hgf : g ≠ filename)
    (hgr : readNote (removeFile s filename) g = none)
    (hread : ∀ f ∈ l₁, f ≠ filename →
      (readNote (removeFile s filename) f).isSome = true) :
    (delete_note s note_id filename).2 = true ∧
    (∀ h, h ∉ l₁ →
      readNote (delete_note s note_id filename).1 h = readNote (removeFile s filename) h) ∧
    (∀ h ∈ l₁, h ≠ filename →
      readNote (delete_note s note_id filename).1 h =
        (readNote (removeFile s filename) h).map (fun c =>
          if containsSub c (delPat note_id) = true
          then pyReplace c (delPat note_id) (delRepl note_id) else c)) := by
  have e : delete_note s note_id filename =
      cleanupLoop note_id filename (list_note_files (removeFile s filename))
        (removeFile s filename) := by
    simp [delete_note, hmem]
  rw [e, hsplit]
  exact cleanupLoop_abort note_id filename g l₂ l₁ (removeFile s filename)
    hnd hgl hgf hgr hread

/-- Witness for the amended C5 at the four-note store: the loop aborts at
the unreadable `3_c.md` and the later `4_d.md` keeps its content. -/
theorem c5_amended_cleanup_aborts_witness :
    ("1_a.md" ∈ ([⟨"1_a.md", some "a"⟩, ⟨"2_b.md", some "x [[1]] y"⟩, ⟨"3_c.md", none⟩,
        ⟨"4_d.md", some "z [[1]]"⟩] : Store).map (fun f => f.name) ∧
     list_note_files (removeFile [⟨"1_a.md", some "a"⟩, ⟨"2_b.md", some "x [[1]] y"⟩,
        ⟨"3_c.md", none⟩, ⟨"4_d.md", some "z [[1]]"⟩] "1_a.md") =
       ["2_b.md"] ++ "3_c.md" :: ["4_d.md"] ∧
     readNote (removeFile [⟨"1_a.md", some "a"⟩, ⟨"2_b.md", some "x [[1]] y"⟩,
        ⟨"3_c.md", none⟩, ⟨"4_d.md", some "z [[1]]"⟩] "1_a.md") "3_c.md" = none) ∧
    (delete_note [⟨"1_a.md", some "a"⟩, ⟨"2_b.md", some "x [[1]] y"⟩, ⟨"3_c.md", none⟩,
        ⟨"4_d.md", some "z [[1]]"⟩] "1" "1_a.md").2 = true :=
  ⟨⟨by decide, by decide, by decide⟩,
   (c5_amended_cleanup_aborts
      [⟨"1_a.md", some "a"⟩, ⟨"2_b.md", some "x [[1]] y"⟩, ⟨"3_c.md", none⟩,
        ⟨"4_d.md", some "z [[1]]"⟩] "1" "1_a.md" "3_c.md" ["2_b.md"] ["4_d.md"]
      (by decide) (by decide) (by decide) (by decide) (by decide) (by decide) (by decide)).1⟩
